import Mathlib

/-!
Shallow embedding of the study-backend summarization pipeline
(`src/api/session/controller.ts`): the extractive summarizer
`generateExtractiveSummary`, the remote adapter `summarizeWithGemini`,
the transcript merge and status bookkeeping of `uploadTranscript`, and
the read-side `getSummary`.  Strings are modelled over their character
lists; JavaScript regular-expression scans are modelled as structural
state machines over the character list; numeric scores are modelled as
exact rationals.
-/

/-- Character class of the JavaScript whitespace regex hidden in
`replace(/\s+/g, " ")` and in `String.prototype.trim`, restricted to the
ASCII whitespace characters (space, tab, line feed, vertical tab, form
feed, carriage return). -/
def isWs (c : Char) : Bool :=
  c.toNat == 32 || c.toNat == 9 || c.toNat == 10 || c.toNat == 11 ||
  c.toNat == 12 || c.toNat == 13

/-- Sentence-terminator characters of the segmentation regex
`/[^.!?]+[.!?]+/g`. -/
def isTerm (c : Char) : Bool :=
  c == '.' || c == '!' || c == '?'

/-- Character class of the word-token regex `/[a-zA-Z0-9']+/g`
(alphanumeric plus apostrophe, code point 39). -/
def isTok (c : Char) : Bool :=
  c.isAlphanum || c.toNat == 39

/-- State machine for `text.replace(/\s+/g, " ")`: every maximal run of
whitespace becomes a single space.  The boolean records whether the
previous character was whitespace. -/
def collapseAux : List Char → Bool → List Char
  | [], _ => []
  | c :: rest, prevWs =>
    if isWs c then
      if prevWs then collapseAux rest true
      else ' ' :: collapseAux rest true
    else c :: collapseAux rest false

/-- The collapsed text `text.replace(/\s+/g, " ")`. -/
def collapseWs (l : List Char) : List Char :=
  collapseAux l false

/-- State machine for the global regex match `/[^.!?]+[.!?]+/g`: `cur`
holds the reversed characters of the match being built, `seenTerm`
records whether the match has entered its terminator run.  A leading
terminator run is skipped; a trailing run without a terminator is
discarded, exactly as the regex leaves it unmatched. -/
def msAux : List Char → List Char → Bool → List (List Char)
  | [], cur, seenTerm => if seenTerm then [cur.reverse] else []
  | c :: rest, cur, seenTerm =>
    if isTerm c then
      if cur.isEmpty then msAux rest [] false
      else msAux rest (c :: cur) true
    else
      if seenTerm then cur.reverse :: msAux rest [c] false
      else msAux rest (c :: cur) seenTerm

/-- All matches of `/[^.!?]+[.!?]+/g` on `l`, in order. -/
def matchSentences (l : List Char) : List (List Char) :=
  msAux l [] false

/-- State machine for the global regex match `/[a-zA-Z0-9']+/g`:
maximal runs of token characters. -/
def tokensAux : List Char → List Char → List (List Char)
  | [], cur => if cur.isEmpty then [] else [cur.reverse]
  | c :: rest, cur =>
    if isTok c then tokensAux rest (c :: cur)
    else if cur.isEmpty then tokensAux rest []
    else cur.reverse :: tokensAux rest []

/-- All matches of `/[a-zA-Z0-9']+/g` on `l`, in order. -/
def tokensOf (l : List Char) : List (List Char) :=
  tokensAux l []

/-- ASCII lowercasing of a character list, modelling `toLowerCase()` on
the characters relevant to the token class. -/
def lowerL (l : List Char) : List Char :=
  l.map Char.toLower

/-- JavaScript `String.prototype.trim`: drop whitespace from both ends. -/
def trimL (l : List Char) : List Char :=
  (((l.dropWhile isWs).reverse.dropWhile isWs)).reverse

/-- JavaScript `Array.prototype.join(" ")` on character lists. -/
def joinSp : List (List Char) → List Char
  | [] => []
  | [x] => x
  | x :: y :: rest => x ++ ' ' :: joinSp (y :: rest)

/-- Sentence list of `generateExtractiveSummary`:
`text.replace(/\s+/g, " ").match(/[^.!?]+[.!?]+/g) || [text]`.  Note the
fallback is the original, uncollapsed `text`. -/
def sentencesOf (text : String) : List (List Char) :=
  match matchSentences (collapseWs text.data) with
  | [] => [text.data]
  | s :: rest => s :: rest

/-- Word list of `generateExtractiveSummary`:
`text.toLowerCase().match(/[a-zA-Z0-9']+/g) || []`. -/
def wordsOf (text : String) : List (List Char) :=
  tokensOf (lowerL text.data)

/-- The fixed stopword set of `generateExtractiveSummary`. -/
def stopWords : List (List Char) :=
  ["the", "is", "in", "at", "of", "a", "an", "and", "or", "to", "for",
   "on", "with", "as", "by", "it", "this", "that", "from", "are", "be",
   "was", "were", "will", "can", "could"].map String.data

/-- Membership test `stop.has(w)`. -/
def isStop (w : List Char) : Bool :=
  stopWords.contains w

/-- The frequency table built by the loop
`for (const w of words) { if (stop.has(w)) continue; freq[w] = (freq[w] || 0) + 1 }`,
as a total map returning 0 for absent keys — the semantics the declared
type `Record<string, number>` states.  The runtime plain object also
inherits `Object.prototype.constructor`, so reads of the key
"constructor" misbehave; `jsBuildFreq` below models that faithfully, and
`jsBuildFreq_agrees` proves the two agree on every other key. -/
def buildFreq (ws : List (List Char)) : List Char → Nat :=
  ws.foldl
    (fun f w =>
      if isStop w then f
      else fun x => if x = w then f x + 1 else f x)
    (fun _ => 0)

/-- Tokens of one sentence: `s.toLowerCase().match(/[a-zA-Z0-9']+/g) || []`. -/
def sentenceTokens (s : List Char) : List (List Char) :=
  tokensOf (lowerL s)

/-- Score of one sentence against a frequency table: the exact rational
with numerator the sum of `freq[w] || 0` over its tokens and denominator
`Math.max(5, sw.length)` (the division `score / Math.max(5, sw.length)`;
`scoreWith_eq_div` below states it as a literal division). -/
def scoreWith (freq : List Char → Nat) (s : List Char) : ℚ :=
  mkRat (((sentenceTokens s).map freq).sum) (max 5 (sentenceTokens s).length)

/-- The score is the division written in the source. -/
theorem scoreWith_eq_div (freq : List Char → Nat) (s : List Char) :
    scoreWith freq s =
      (((sentenceTokens s).map (fun w => (freq w : ℚ))).sum) /
        ((max 5 (sentenceTokens s).length : ℕ) : ℚ) := by
  rw [scoreWith, Rat.mkRat_eq_div]
  norm_num [Nat.cast_list_sum, List.map_map, Function.comp_def]

/-- One element of the `indexed` array: sentence, original index, score. -/
structure SentInfo where
  s : List Char
  i : Nat
  score : ℚ
deriving DecidableEq

/-- The array `sentences.map((s, i) => ({ s, i, score: scores[i] }))`,
built with a running index. -/
def mkIndexed (f : List Char → ℚ) : Nat → List (List Char) → List SentInfo
  | _, [] => []
  | n, s :: rest => ⟨s, n, f s⟩ :: mkIndexed f (n + 1) rest

/-- Comparator of the first sort `(a, b) => b.score - a.score`: `a`
strictly precedes `b` when its score is strictly larger. -/
def scoreLt (a b : SentInfo) : Bool :=
  decide (b.score < a.score)

/-- Comparator of the second sort `(a, b) => a.i - b.i`: `a` strictly
precedes `b` when its original index is smaller. -/
def idxLt (a b : SentInfo) : Bool :=
  decide (a.i < b.i)

/-- Stable insertion: `x` is placed before the first element it strictly
precedes, hence after every earlier element that ties with it. -/
def insertBy (lt : α → α → Bool) (x : α) : List α → List α
  | [] => [x]
  | y :: ys => if lt x y then x :: y :: ys else y :: insertBy lt x ys

/-- Stable sort (the semantics of JavaScript `Array.prototype.sort` with
a consistent comparator): fold the list left to right into a sorted
accumulator. -/
def sortByStable (lt : α → α → Bool) (l : List α) : List α :=
  l.foldl (fun acc x => insertBy lt x acc) []

/-- Number of elements kept by
`indexed.slice(0, Math.min(maxSentences, indexed.length))`: JavaScript
`slice` clamps a nonnegative end to the length and counts a negative end
from the end of the array. -/
def takeCount (m : Int) (len : Nat) : Nat :=
  if m < 0 then ((len : Int) + m).toNat else min m.toNat len

/-- The `top` array of `generateExtractiveSummary`: score-sort the
indexed sentences (descending, stable), slice, then re-sort the slice by
original index (ascending). -/
def selectedTop (text : String) (maxSentences : Int) : List SentInfo :=
  let indexed := mkIndexed (scoreWith (buildFreq (wordsOf text))) 0 (sentencesOf text)
  let sorted := sortByStable scoreLt indexed
  sortByStable idxLt (sorted.take (takeCount maxSentences indexed.length))

/-- The extractive summarizer `generateExtractiveSummary(text, maxSentences)`:
empty input short-circuits to the empty string, otherwise the selected
sentences are trimmed and joined with single spaces. -/
def generateExtractiveSummary (text : String) (maxSentences : Int := 5) : String :=
  if text = "" then ""
  else String.mk (joinSp ((selectedTop text maxSentences).map (fun t => trimL t.s)))

/-- JavaScript `String.prototype.trim` on strings. -/
def trimStr (s : String) : String :=
  String.mk (trimL s.data)

/-- Tail truncation of `summarizeWithGemini`:
`transcript.length > maxChars ? transcript.slice(-maxChars) : transcript`,
keeping the most recent `maxChars` characters. -/
def tailTruncate (maxChars : Nat) (s : String) : String :=
  if maxChars < s.length then String.mk (s.data.drop (s.length - maxChars))
  else s

/-- The fixed instructional preamble of the Gemini request. -/
def geminiPreamble : String :=
  "You are an expert note-taker for student study sessions. Summarize the discussion into clear, concise bullet points with headings, action items, and key takeaways. Keep it objective and avoid fabrications. Transcript begins:\n\n"

/-- Outcome of one `fetch` of the Gemini endpoint, after JSON decoding:
`ok` is `resp.ok`, and `textPayload` is
`data?.candidates?.[0]?.content?.parts?.[0]?.text` when that optional
chain yields a string, `none` for any other response shape. -/
structure GeminiResponse where
  ok : Bool
  textPayload : Option String

/-- The process environment and network as `summarizeWithGemini` sees
them: the credential `process.env.GEMINI_API_KEY`, and the response the
network produces for a given request text, `none` meaning the `fetch`
or JSON decoding threw (caught by the surrounding try). -/
structure GeminiEnv where
  apiKey : Option String
  fetch : String → Option GeminiResponse

/-- The remote adapter `summarizeWithGemini(transcript)`: missing or
empty credential yields null; the request carries the preamble plus the
tail-truncated transcript; a thrown fetch, a non-ok response, a missing
or non-string text payload, or a payload that is blank after trimming
all yield null; otherwise the trimmed payload is returned.  The function
is total — every failure is a `none` result, never an exception. -/
def summarizeWithGemini (env : GeminiEnv) (transcript : String) :
    Option String :=
  match env.apiKey with
  | none => none
  | some key =>
    if key = "" then none
    else
      match env.fetch (geminiPreamble ++ tailTruncate 16000 transcript) with
      | none => none
      | some resp =>
        if resp.ok = false then none
        else
          match resp.textPayload with
          | none => none
          | some t =>
            if 0 < (trimStr t).length then some (trimStr t) else none

/-- Transcript merge of `uploadTranscript`:
`existingTranscript ? existingTranscript + "\n" + transcript : transcript`,
where a missing field and the empty string are both falsy. -/
def mergeTranscript : Option String → String → String
  | none, incoming => incoming
  | some existing, incoming =>
    if existing = "" then incoming else existing ++ "\n" ++ incoming

/-- The four persisted session fields this core reads and writes.
Fields the database has never stored are `none`. -/
structure Session where
  transcript : Option String
  transcriptLang : Option String
  summary : Option String
  summaryStatus : Option String
deriving DecidableEq

/-- A session as the external store creates it: no transcript, no
summary, no status. -/
def initialSession : Session :=
  { transcript := none, transcriptLang := none, summary := none,
    summaryStatus := none }

/-- The first write of `uploadTranscript`: merged transcript, status
pending, language.  It is issued and awaited before the summarizers run,
so it does not depend on the remote oracle; the stored summary is left
untouched. -/
def pendingState (s : Session) (fragment : String) (lang : Option String) :
    Session :=
  { s with
    transcript := some (mergeTranscript s.transcript fragment)
    summaryStatus := some "pending"
    transcriptLang := lang }

/-- The final summary `llmSummary || generateExtractiveSummary(mergedTranscript, 5)`:
a falsy remote result (null or empty string) falls back to the
extractive summary. -/
def finalSummary (remote : String → Option String) (merged : String) :
    String :=
  match remote merged with
  | some t => if t = "" then generateExtractiveSummary merged 5 else t
  | none => generateExtractiveSummary merged 5

/-- The second write of `uploadTranscript`: final summary and status
completed on top of the pending state. -/
def completedState (remote : String → Option String) (s : Session)
    (fragment : String) (lang : Option String) : Session :=
  { pendingState s fragment lang with
    summary := some (finalSummary remote (mergeTranscript s.transcript fragment))
    summaryStatus := some "completed" }

/-- One whole `uploadTranscript` submission: the resulting session state
and the summary returned in the 200 response. -/
def uploadTranscriptStep (remote : String → Option String) (s : Session)
    (fragment : String) (lang : Option String) : Session × String :=
  (completedState remote s fragment lang,
   finalSummary remote (mergeTranscript s.transcript fragment))

/-- The two store writes of one submission, in program order: the
pending write strictly precedes any summarization (it does not mention
the remote oracle), and the completed write follows it. -/
def uploadWrites (remote : String → Option String) (s : Session)
    (fragment : String) (lang : Option String) : List Session :=
  [pendingState s fragment lang, completedState remote s fragment lang]

/-- Session states reachable from a fresh session by complete
`uploadTranscript` submissions, each with a validated fragment
(`z.string().min(1)`, so of length at least 1) and an arbitrary remote
outcome for that submission. -/
inductive Reach : Session → Prop where
  | init : Reach initialSession
  | step (remote : String → Option String) (s : Session) (fragment : String)
      (lang : Option String) : Reach s → 1 ≤ fragment.length →
      Reach (uploadTranscriptStep remote s fragment lang).1

/-- JavaScript coercion `x || null` on an optional string: the empty
string collapses to null. -/
def truthyOpt : Option String → Option String
  | none => none
  | some t => if t = "" then none else some t

/-- The payload of `getSummary`. -/
structure SummaryView where
  transcript : Option String
  summary : Option String
  status : String
  lang : Option String
deriving DecidableEq

/-- The response body of `getSummary`:
`status: s.summaryStatus || (s.summary ? "completed" : "not_available")`,
the other three fields coerced with `|| null`. -/
def getSummaryView (s : Session) : SummaryView :=
  { transcript := truthyOpt s.transcript
    summary := truthyOpt s.summary
    status :=
      match truthyOpt s.summaryStatus with
      | some st => st
      | none =>
        match truthyOpt s.summary with
        | some _ => "completed"
        | none => "not_available"
    lang := truthyOpt s.transcriptLang }

/-- The whole `getSummary` handler: it computes the view and performs no
store write, so the session state it leaves behind is its input. -/
def getSummaryStep (s : Session) : SummaryView × Session :=
  (getSummaryView s, s)

/-- The status a reader polling `getSummary` observes. -/
def observedStatus (s : Session) : String :=
  (getSummaryView s).status

/-- Inserting with `insertBy` permutes: the result is the element on top
of the old list, up to permutation. -/
theorem insertBy_perm (lt : α → α → Bool) (x : α) (l : List α) :
    List.Perm (insertBy lt x l) (x :: l) := by
  induction l with
  | nil => simp [insertBy]
  | cons y ys ih =>
    rw [insertBy]
    by_cases h : lt x y
    · simp [h]
    · simp only [if_neg h]
      exact (ih.cons y).trans (List.Perm.swap x y ys)

/-- The fold underlying `sortByStable` permutes the accumulator and the
remaining input. -/
theorem sortByStable_aux_perm (lt : α → α → Bool) (l acc : List α) :
    List.Perm (l.foldl (fun a x => insertBy lt x a) acc) (acc ++ l) := by
  induction l generalizing acc with
  | nil => simp
  | cons x xs ih =>
    rw [List.foldl_cons]
    exact ((ih (insertBy lt x acc)).trans
      (((insertBy_perm lt x acc).append_right xs).trans
        List.perm_middle.symm))

/-- The stable sort is a permutation of its input. -/
theorem sortByStable_perm (lt : α → α → Bool) (l : List α) :
    List.Perm (sortByStable lt l) l := by
  simpa using sortByStable_aux_perm lt l []

/-- Insertion preserves sortedness for a comparator that is asymmetric
and whose complement is transitive against it. -/
theorem insertBy_pairwise (lt : α → α → Bool)
    (hasym : ∀ a b, lt a b = true → lt b a = false)
    (htrans : ∀ x y z, lt x y = true → lt z y = false → lt z x = false)
    (x : α) (l : List α)
    (hl : List.Pairwise (fun a b => lt b a = false) l) :
    List.Pairwise (fun a b => lt b a = false) (insertBy lt x l) := by
  induction l with
  | nil => simp [insertBy]
  | cons y ys ih =>
    rw [List.pairwise_cons] at hl
    obtain ⟨h1, h2⟩ := hl
    rw [insertBy]
    by_cases h : lt x y
    · simp only [if_pos h]
      refine List.Pairwise.cons ?_ (List.Pairwise.cons h1 h2)
      intro w hw
      rcases List.mem_cons.mp hw with hwy | hwys
      · subst hwy; exact hasym _ _ h
      · exact htrans x y w h (h1 w hwys)
    · simp only [if_neg h]
      refine List.Pairwise.cons ?_ (ih h2)
      intro w hw
      have : w ∈ x :: ys := ((insertBy_perm lt x ys).mem_iff).mp hw
      rcases List.mem_cons.mp this with hwx | hwys
      · subst hwx; exact Bool.eq_false_iff.mpr h
      · exact h1 w hwys

/-- The stable sort is sorted: every element strictly precedes no
element placed before it. -/
theorem sortByStable_pairwise (lt : α → α → Bool)
    (hasym : ∀ a b, lt a b = true → lt b a = false)
    (htrans : ∀ x y z, lt x y = true → lt z y = false → lt z x = false)
    (l : List α) :
    List.Pairwise (fun a b => lt b a = false) (sortByStable lt l) := by
  have aux : ∀ (l acc : List α),
      List.Pairwise (fun a b => lt b a = false) acc →
      List.Pairwise (fun a b => lt b a = false)
        (l.foldl (fun a x => insertBy lt x a) acc) := by
    intro l
    induction l with
    | nil => intro acc h; simpa using h
    | cons x xs ih =>
      intro acc h
      rw [List.foldl_cons]
      exact ih _ (insertBy_pairwise lt hasym htrans x acc h)
  exact aux l [] List.Pairwise.nil

/-- The score comparator is asymmetric. -/
theorem scoreLt_asym (a b : SentInfo) :
    scoreLt a b = true → scoreLt b a = false := by
  simp only [scoreLt, decide_eq_true_eq, decide_eq_false_iff_not]
  exact fun h => lt_asymm h

/-- The complement of the score comparator is transitive against it. -/
theorem scoreLt_trans (x y z : SentInfo) :
    scoreLt x y = true → scoreLt z y = false → scoreLt z x = false := by
  simp only [scoreLt, decide_eq_true_eq, decide_eq_false_iff_not]
  intro h1 h2
  exact fun hc => lt_asymm h1 (lt_of_lt_of_le hc (le_of_not_lt h2))

/-- The index comparator is asymmetric. -/
theorem idxLt_asym (a b : SentInfo) :
    idxLt a b = true → idxLt b a = false := by
  simp only [idxLt, decide_eq_true_eq, decide_eq_false_iff_not]
  exact fun h => Nat.not_lt.mpr (Nat.le_of_lt h)

/-- The complement of the index comparator is transitive against it. -/
theorem idxLt_trans (x y z : SentInfo) :
    idxLt x y = true → idxLt z y = false → idxLt z x = false := by
  simp only [idxLt, decide_eq_true_eq, decide_eq_false_iff_not]
  intro h1 h2
  exact fun hc => h2 (Nat.lt_trans hc h1)

/-- On input without terminators the sentence machine, still inside a
body run, never emits anything. -/
theorem msAux_nonterm_nil (t : List Char) (ht : ∀ c ∈ t, isTerm c = false) :
    ∀ cur, msAux t cur false = [] := by
  induction t with
  | nil => intro cur; simp [msAux]
  | cons c rest ih =>
    intro cur
    have hc : isTerm c = false := ht c (List.mem_cons_self c rest)
    rw [msAux, hc]
    simp only [Bool.false_eq_true, if_false]
    exact ih (fun d hd => ht d (List.mem_cons_of_mem c hd)) (c :: cur)

/-- Appending terminator-free text never changes the matches of the
sentence regex: the machine produces the same output with or without
the trailing run. -/
theorem msAux_append_nonterm (t : List Char) (ht : ∀ c ∈ t, isTerm c = false) :
    ∀ (l cur : List Char) (st : Bool),
      msAux (l ++ t) cur st = msAux l cur st := by
  intro l
  induction l with
  | nil =>
    intro cur st
    cases st with
    | false =>
      rw [List.nil_append, msAux_nonterm_nil t ht cur]
      simp [msAux]
    | true =>
      rw [List.nil_append]
      cases t with
      | nil => rfl
      | cons c rest =>
        have hc : isTerm c = false := ht c (List.mem_cons_self c rest)
        simp only [msAux, hc, Bool.false_eq_true, if_false, if_true]
        rw [msAux_nonterm_nil rest (fun d hd => ht d (List.mem_cons_of_mem c hd)) [c]]
  | cons a l ih =>
    intro cur st
    rw [List.cons_append]
    by_cases ha : isTerm a = true
    · by_cases hcur : cur.isEmpty
      · simp only [msAux, ha, if_true, hcur]
        exact ih [] false
      · simp only [msAux, ha, if_true, hcur, Bool.false_eq_true, if_false]
        exact ih (a :: cur) true
    · rw [Bool.not_eq_true] at ha
      cases st with
      | false =>
        simp only [msAux, ha, Bool.false_eq_true, if_false]
        exact ih (a :: cur) false
      | true =>
        simp only [msAux, ha, Bool.false_eq_true, if_false, if_true]
        rw [ih [a] false]

/-- Every match the sentence machine emits contains a terminator
character, provided the pending match does whenever its terminator flag
is set. -/
theorem msAux_term_mem (l : List Char) :
    ∀ (cur : List Char) (st : Bool),
      (st = true → ∃ c ∈ cur, isTerm c = true) →
      ∀ x ∈ msAux l cur st, ∃ c ∈ x, isTerm c = true := by
  induction l with
  | nil =>
    intro cur st hst x hx
    cases st with
    | false => simp [msAux] at hx
    | true =>
      simp only [msAux, if_pos] at hx
      rcases List.mem_singleton.mp hx with h
      obtain ⟨c, hc1, hc2⟩ := hst rfl
      exact ⟨c, h ▸ List.mem_reverse.mpr hc1, hc2⟩
  | cons a rest ih =>
    intro cur st hst x hx
    rw [msAux] at hx
    by_cases ha : isTerm a = true
    · rw [ha] at hx
      by_cases hcur : cur.isEmpty
      · rw [if_pos rfl, if_pos hcur] at hx
        exact ih [] false (by simp) x hx
      · rw [if_pos rfl, if_neg hcur] at hx
        exact ih (a :: cur) true
          (fun _ => ⟨a, List.mem_cons_self a cur, ha⟩) x hx
    · rw [Bool.not_eq_true] at ha
      rw [ha] at hx
      simp only [Bool.false_eq_true, if_false] at hx
      cases st with
      | false =>
        simp only [Bool.false_eq_true, if_false] at hx
        exact ih (a :: cur) false (by simp) x hx
      | true =>
        rw [if_pos rfl] at hx
        rcases List.mem_cons.mp hx with hxc | hxs
        · obtain ⟨c, hc1, hc2⟩ := hst rfl
          exact ⟨c, hxc ▸ List.mem_reverse.mpr hc1, hc2⟩
        · exact ih [a] false (by simp) x hxs

/-- Every sentence the regex matches contains a terminator character. -/
theorem matchSentences_term (l : List Char) :
    ∀ x ∈ matchSentences l, ∃ c ∈ x, isTerm c = true := by
  exact msAux_term_mem l [] false (by simp)

/-- The first element surviving `dropWhile` fails the predicate. -/
theorem head?_dropWhile_false (p : α → Bool) (l : List α) :
    ∀ c, (l.dropWhile p).head? = some c → p c = false := by
  induction l with
  | nil => intro c h; simp at h
  | cons a t ih =>
    intro c h
    rw [List.dropWhile_cons] at h
    by_cases ha : p a = true
    · rw [if_pos ha] at h
      exact ih c h
    · rw [Bool.not_eq_true] at ha
      rw [if_neg (by simp [ha])] at h
      rw [List.head?_cons, Option.some_inj] at h
      exact h ▸ ha

/-- A list whose head fails the predicate is unchanged by `dropWhile`. -/
theorem dropWhile_of_head_false (p : α → Bool) (l : List α)
    (h : ∀ c, l.head? = some c → p c = false) :
    l.dropWhile p = l := by
  cases l with
  | nil => rfl
  | cons a t =>
    have := h a rfl
    rw [List.dropWhile_cons, if_neg (by simp [this])]

/-- A nonempty `dropWhile` result keeps the last element of its input. -/
theorem getLast?_dropWhile (p : α → Bool) (l : List α)
    (h : l.dropWhile p ≠ []) :
    (l.dropWhile p).getLast? = l.getLast? := by
  induction l with
  | nil => simp at h
  | cons a t ih =>
    rw [List.dropWhile_cons] at h ⊢
    by_cases ha : p a = true
    · rw [if_pos ha] at h ⊢
      have ht : t ≠ [] := by
        intro he; rw [he] at h; simp at h
      rw [ih h]
      cases t with
      | nil => exact absurd rfl ht
      | cons b u => rw [List.getLast?_cons_cons]
    · rw [if_neg ha] at h ⊢

/-- Trimming twice is trimming once (used for the adapter contract that
a returned payload equals its own trim). -/
theorem trimL_idem (l : List Char) : trimL (trimL l) = trimL l := by
  by_cases hB : (((l.dropWhile isWs).reverse).dropWhile isWs) = []
  · rw [trimL, trimL, hB]
    simp [List.dropWhile]
  · have hstep1 : ((trimL l).dropWhile isWs) = trimL l := by
      apply dropWhile_of_head_false
      intro c hc
      rw [trimL, List.head?_reverse] at hc
      rw [getLast?_dropWhile isWs _ hB, List.getLast?_reverse] at hc
      exact head?_dropWhile_false isWs l c hc
    have hstep2 :
        ((trimL l).reverse).dropWhile isWs = (trimL l).reverse := by
      apply dropWhile_of_head_false
      intro c hc
      rw [trimL, List.reverse_reverse] at hc
      exact head?_dropWhile_false isWs (l.dropWhile isWs).reverse c hc
    rw [trimL, hstep1, hstep2, List.reverse_reverse]

/-- An element failing the predicate survives `dropWhile`. -/
theorem mem_dropWhile_of_false (p : α → Bool) (l : List α) (c : α)
    (hc : c ∈ l) (hp : p c = false) : c ∈ l.dropWhile p := by
  have hsplit : l.takeWhile p ++ l.dropWhile p = l :=
    List.takeWhile_append_dropWhile p l
  rw [← hsplit] at hc
  rcases List.mem_append.mp hc with h | h
  · have := List.mem_takeWhile_imp h
    rw [hp] at this
    exact absurd this (by simp)
  · exact h

/-- A list containing a non-whitespace character trims to a nonempty
list. -/
theorem trimL_ne_nil (l : List Char) (c : Char) (hc : c ∈ l)
    (hw : isWs c = false) : trimL l ≠ [] := by
  have h1 : c ∈ l.dropWhile isWs := mem_dropWhile_of_false isWs l c hc hw
  have h2 : c ∈ (l.dropWhile isWs).reverse := List.mem_reverse.mpr h1
  have h3 : c ∈ ((l.dropWhile isWs).reverse).dropWhile isWs :=
    mem_dropWhile_of_false isWs _ c h2 hw
  have h4 : c ∈ trimL l := List.mem_reverse.mpr h3
  exact List.ne_nil_of_mem h4

/-- A join of two or more chunks, or of one nonempty chunk, is
nonempty. -/
theorem joinSp_ne_nil (x : List Char) (xs : List (List Char))
    (h : x ≠ [] ∨ xs ≠ []) : joinSp (x :: xs) ≠ [] := by
  cases xs with
  | nil =>
    rcases h with h | h
    · simpa [joinSp] using h
    · exact absurd rfl h
  | cons y ys =>
    rw [joinSp]
    simp

/-- The part of a text strictly after its last sentence terminator (the
whole text when it has no terminator). -/
def afterLastTerm (l : List Char) : List Char :=
  (l.reverse.takeWhile (fun c => !isTerm c)).reverse

/-- The prefix of a text up to and including its last sentence
terminator (empty when it has no terminator). -/
def uptoLastTerm (l : List Char) : List Char :=
  (l.reverse.dropWhile (fun c => !isTerm c)).reverse

/-- The two parts recombine to the text. -/
theorem uptoLastTerm_append (l : List Char) :
    uptoLastTerm l ++ afterLastTerm l = l := by
  rw [uptoLastTerm, afterLastTerm, ← List.reverse_append,
    List.takeWhile_append_dropWhile, List.reverse_reverse]

/-- No character after the last terminator is a terminator. -/
theorem afterLastTerm_nonterm (l : List Char) :
    ∀ c ∈ afterLastTerm l, isTerm c = false := by
  intro c hc
  rw [afterLastTerm, List.mem_reverse] at hc
  have := List.mem_takeWhile_imp hc
  simpa using this

/-- Sentence segmentation never looks past the last terminator. -/
theorem matchSentences_uptoLastTerm (l : List Char) :
    matchSentences l = matchSentences (uptoLastTerm l) := by
  conv_lhs => rw [← uptoLastTerm_append l]
  exact msAux_append_nonterm (afterLastTerm l) (afterLastTerm_nonterm l)
    (uptoLastTerm l) [] false

/-- Elements of the indexed array: each carries a sentence of the input
list, found at its recorded index (relative to the starting index). -/
theorem mkIndexed_mem (f : List Char → ℚ) :
    ∀ (sents : List (List Char)) (n : Nat),
      ∀ p ∈ mkIndexed f n sents,
        ∃ j, p.i = n + j ∧ sents.get? j = some p.s ∧ p.score = f p.s := by
  intro sents
  induction sents with
  | nil => intro n p hp; simp [mkIndexed] at hp
  | cons s rest ih =>
    intro n p hp
    rw [mkIndexed] at hp
    rcases List.mem_cons.mp hp with h | h
    · subst h; exact ⟨0, rfl, rfl, rfl⟩
    · obtain ⟨j, hj1, hj2, hj3⟩ := ih (n + 1) p h
      exact ⟨j + 1, by omega, by simpa using hj2, hj3⟩

/-- The indexed array is as long as the sentence list. -/
theorem mkIndexed_length (f : List Char → ℚ) :
    ∀ (sents : List (List Char)) (n : Nat),
      (mkIndexed f n sents).length = sents.length := by
  intro sents
  induction sents with
  | nil => intro n; rfl
  | cons s rest ih => intro n; simp [mkIndexed, ih]

/-- The indices of the indexed array are strictly increasing. -/
theorem mkIndexed_pairwise_lt (f : List Char → ℚ) :
    ∀ (sents : List (List Char)) (n : Nat),
      List.Pairwise (fun a b => a.i < b.i) (mkIndexed f n sents) := by
  intro sents
  induction sents with
  | nil => intro n; exact List.Pairwise.nil
  | cons s rest ih =>
    intro n
    rw [mkIndexed]
    refine List.Pairwise.cons ?_ (ih (n + 1))
    intro p hp
    obtain ⟨j, hj1, _, _⟩ := mkIndexed_mem f rest (n + 1) p hp
    show n < p.i
    omega

/-- Unfolded form of `selectedTop`. -/
theorem selectedTop_def (text : String) (m : Int) :
    selectedTop text m =
      sortByStable idxLt
        ((sortByStable scoreLt
            (mkIndexed (scoreWith (buildFreq (wordsOf text))) 0
              (sentencesOf text))).take
          (takeCount m
            (mkIndexed (scoreWith (buildFreq (wordsOf text))) 0
              (sentencesOf text)).length)) := rfl

/-- Every selected element comes from the indexed array. -/
theorem selectedTop_subset (text : String) (m : Int) :
    ∀ p ∈ selectedTop text m,
      p ∈ mkIndexed (scoreWith (buildFreq (wordsOf text))) 0
            (sentencesOf text) := by
  intro p hp
  rw [selectedTop_def] at hp
  have h1 := (sortByStable_perm idxLt _).mem_iff.mp hp
  have h2 := (List.take_sublist _ _).subset h1
  exact (sortByStable_perm scoreLt _).mem_iff.mp h2

/-- Every selected element records a sentence of the segmentation at its
recorded original index, and carries that sentence's score. -/
theorem selectedTop_get? (text : String) (m : Int) :
    ∀ p ∈ selectedTop text m,
      (sentencesOf text).get? p.i = some p.s ∧
        p.score = scoreWith (buildFreq (wordsOf text)) p.s := by
  intro p hp
  obtain ⟨j, hj1, hj2, hj3⟩ :=
    mkIndexed_mem _ (sentencesOf text) 0 p (selectedTop_subset text m p hp)
  have : j = p.i := by omega
  exact ⟨this ▸ hj2, hj3⟩

/-- The number of selected sentences is the slice size clamped by the
sentence count. -/
theorem selectedTop_length (text : String) (m : Int) :
    (selectedTop text m).length =
      min (takeCount m (sentencesOf text).length)
        (sentencesOf text).length := by
  rw [selectedTop_def]
  rw [(sortByStable_perm idxLt _).length_eq, List.length_take,
    (sortByStable_perm scoreLt _).length_eq, mkIndexed_length]

/-- The selected sentences are strictly ordered by original position. -/
theorem selectedTop_sorted (text : String) (m : Int) :
    List.Pairwise (fun a b => a.i < b.i) (selectedTop text m) := by
  have hne :
      List.Pairwise (fun a b : SentInfo => a.i ≠ b.i)
        (selectedTop text m) := by
    have hI :
        List.Pairwise (fun a b : SentInfo => a.i ≠ b.i)
          (mkIndexed (scoreWith (buildFreq (wordsOf text))) 0
            (sentencesOf text)) :=
      (mkIndexed_pairwise_lt _ _ 0).imp (fun h => Nat.ne_of_lt h)
    have hsymm : ∀ {a b : SentInfo}, a.i ≠ b.i → b.i ≠ a.i :=
      fun h => Ne.symm h
    rw [selectedTop_def]
    rw [List.Perm.pairwise_iff hsymm (sortByStable_perm idxLt _)]
    refine List.Pairwise.sublist (List.take_sublist _ _) ?_
    rw [List.Perm.pairwise_iff hsymm (sortByStable_perm scoreLt _)]
    exact hI
  have hle :
      List.Pairwise (fun a b : SentInfo => idxLt b a = false)
        (selectedTop text m) := by
    rw [selectedTop_def]
    exact sortByStable_pairwise idxLt idxLt_asym idxLt_trans _
  refine (hle.and hne).imp ?_
  intro a b hab
  obtain ⟨h1, h2⟩ := hab
  have : ¬ b.i < a.i := by simpa [idxLt] using h1
  omega

/-- The sentence list is never empty: the regex fallback supplies the
whole text when there is no match. -/
theorem sentencesOf_ne_nil (text : String) : sentencesOf text ≠ [] := by
  rw [sentencesOf]
  cases matchSentences (collapseWs text.data) <;> simp

/-- A terminator character is not whitespace. -/
theorem isTerm_not_ws (c : Char) (h : isTerm c = true) : isWs c = false := by
  rw [isTerm] at h
  rcases Bool.or_eq_true _ _ |>.mp h with h1 | h1
  · rcases Bool.or_eq_true _ _ |>.mp h1 with h2 | h2
    · rw [eq_of_beq h2]; decide
    · rw [eq_of_beq h2]; decide
  · rw [eq_of_beq h1]; decide

/-- An equal-to-empty test on a built string forces an empty character
list. -/
theorem stringMk_eq_empty (l : List Char) (h : String.mk l = "") :
    l = [] := by
  have := congrArg String.data h
  simpa using this

/-- The extractive fallback never returns the empty string on input
containing a non-whitespace character (with the default sentence budget
used by the orchestrator). -/
theorem generateExtractiveSummary_ne_empty (text : String) (c : Char)
    (hc : c ∈ text.data) (hw : isWs c = false) :
    generateExtractiveSummary text 5 ≠ "" := by
  have htext : text ≠ "" := by
    intro he
    rw [he] at hc
    exact absurd hc (List.not_mem_nil c)
  rw [generateExtractiveSummary, if_neg htext]
  intro hcon
  have hnil := stringMk_eq_empty _ hcon
  have hlen :
      1 ≤ (selectedTop text 5).length := by
    rw [selectedTop_length]
    have hn : 1 ≤ (sentencesOf text).length :=
      List.length_pos.mpr (sentencesOf_ne_nil text)
    have hk : 1 ≤ takeCount 5 (sentencesOf text).length := by
      rw [takeCount]
      rw [if_neg (by omega)]
      omega
    omega
  cases hsel : selectedTop text 5 with
  | nil => rw [hsel] at hlen; simp at hlen
  | cons p ps =>
    cases ps with
    | nil =>
      rw [hsel] at hnil
      simp only [List.map_cons, List.map_nil, joinSp] at hnil
      have hp : p ∈ selectedTop text 5 := by
        rw [hsel]; exact List.mem_cons_self p []
      obtain ⟨hget, _⟩ := selectedTop_get? text 5 p hp
      have hmem : p.s ∈ sentencesOf text := List.get?_mem hget
      rw [sentencesOf] at hmem
      cases hms : matchSentences (collapseWs text.data) with
      | nil =>
        rw [hms] at hmem
        have : p.s = text.data := List.mem_singleton.mp hmem
        exact trimL_ne_nil text.data c hc hw (this ▸ hnil)
      | cons s0 srest =>
        rw [hms] at hmem
        obtain ⟨d, hd1, hd2⟩ :=
          matchSentences_term (collapseWs text.data) p.s (hms ▸ hmem)
        exact trimL_ne_nil p.s d hd1 (isTerm_not_ws d hd2) hnil
    | cons q qs =>
      rw [hsel] at hnil
      simp only [List.map_cons] at hnil
      exact joinSp_ne_nil (trimL p.s) (trimL q.s :: qs.map (fun t => trimL t.s))
        (Or.inr (by simp)) hnil

/-- Lookup in the built frequency table counts occurrences among the
non-stopword words. -/
theorem buildFreq_eq_count (ws : List (List Char)) (w : List Char) :
    buildFreq ws w = (ws.filter (fun v => !isStop v)).count w := by
  have aux : ∀ (ws : List (List Char)) (f : List Char → Nat),
      (ws.foldl
        (fun f w =>
          if isStop w then f
          else fun x => if x = w then f x + 1 else f x) f) w
        = f w + (ws.filter (fun v => !isStop v)).count w := by
    intro ws
    induction ws with
    | nil => intro f; simp
    | cons v rest ih =>
      intro f
      rw [List.foldl_cons]
      by_cases hv : isStop v = true
      · rw [if_pos hv, ih]
        simp [List.filter_cons, hv]
      · rw [Bool.not_eq_true] at hv
        rw [if_neg (by simp [hv]), ih]
        simp only [List.filter_cons, hv, Bool.not_false, if_true]
        by_cases hwv : w = v
        · subst hwv
          rw [if_pos rfl, List.count_cons, if_pos (beq_self_eq_true w)]
          omega
        · rw [if_neg hwv, List.count_cons,
            if_neg (fun hbe => hwv (eq_of_beq hbe).symm)]
          omega
  rw [buildFreq, aux]
  exact Nat.zero_add _

/-- C4: TranscriptMerger.merge returns `incoming` when `existing` is
absent or empty, returns `existing + "\n" + incoming` (exactly one
newline separator) otherwise, and consequently for all non-empty strings
`a` and `b`, `merge(merge(none, a), b) = a + "\n" + b`. -/
theorem C4_merge_spec :
    (∀ incoming : String,
        mergeTranscript none incoming = incoming ∧
        mergeTranscript (some "") incoming = incoming) ∧
    (∀ existing incoming : String, existing ≠ "" →
        mergeTranscript (some existing) incoming =
          existing ++ "\n" ++ incoming) ∧
    (∀ a b : String, a ≠ "" → b ≠ "" →
        mergeTranscript (some (mergeTranscript none a)) b =
          a ++ "\n" ++ b) := by
  refine ⟨fun incoming => ⟨rfl, by rw [mergeTranscript, if_pos rfl]⟩,
    fun existing incoming h => by rw [mergeTranscript, if_neg h],
    fun a b ha hb => by rw [mergeTranscript, mergeTranscript, if_neg ha]⟩

/-- Witness for C4 at concrete non-empty fragments. -/
theorem C4_merge_spec_witness :
    ("a" : String) ≠ "" ∧ ("b" : String) ≠ "" ∧
    mergeTranscript (some (mergeTranscript none "a")) "b" =
      "a" ++ "\n" ++ "b" :=
  ⟨by decide, by decide, C4_merge_spec.2.2 "a" "b" (by decide) (by decide)⟩

/-- C1: whenever the remote summarizer yields nothing on the merged
transcript, the summary the orchestrator returns to the caller and the
summary it persists both equal
`ExtractiveSummarizer.summarize(mergedTranscript, 5)` exactly. -/
theorem C1_remote_none_fallback (remote : String → Option String)
    (s : Session) (fragment : String) (lang : Option String)
    (h : remote (mergeTranscript s.transcript fragment) = none) :
    (uploadTranscriptStep remote s fragment lang).2 =
      generateExtractiveSummary (mergeTranscript s.transcript fragment) 5 ∧
    (uploadTranscriptStep remote s fragment lang).1.summary =
      some (generateExtractiveSummary
        (mergeTranscript s.transcript fragment) 5) := by
  constructor
  · show finalSummary remote (mergeTranscript s.transcript fragment) = _
    rw [finalSummary, h]
  · show (completedState remote s fragment lang).summary = _
    rw [completedState]
    simp only []
    rw [finalSummary, h]

/-- Witness for C1: a remote oracle that always fails, on a fresh
session. -/
theorem C1_remote_none_fallback_witness :
    ((fun _ : String => (none : Option String))
        (mergeTranscript initialSession.transcript "hello there.") = none) ∧
    (uploadTranscriptStep (fun _ => none) initialSession "hello there."
        none).2 =
      generateExtractiveSummary
        (mergeTranscript initialSession.transcript "hello there.") 5 ∧
    (uploadTranscriptStep (fun _ => none) initialSession "hello there."
        none).1.summary =
      some (generateExtractiveSummary
        (mergeTranscript initialSession.transcript "hello there.") 5) :=
  ⟨rfl, C1_remote_none_fallback (fun _ => none) initialSession
    "hello there." none rfl⟩

/-- Counterexample to C7: `maxSentences = -1` is nonpositive, yet on a
three-sentence text the summarizer returns a non-empty string, because
`Math.min(-1, 3) = -1` feeds JavaScript `slice` a negative end index,
which counts from the end of the array and keeps two sentences. -/
theorem C7_counterexample :
    (-1 : Int) ≤ 0 ∧
    generateExtractiveSummary "Aa. Bb. Cc." (-1) = "Aa. Bb." := by
  exact ⟨by decide, by decide⟩

/-- C7 as amended: the summarizer returns the empty string whenever
`maxSentences = 0`, or `maxSentences` is at most the negated count of
segmented sentences, so that the JavaScript negative-end `slice` keeps
nothing.  The counterexample above shows other nonpositive values need
not give an empty result. -/
theorem C7_amended (text : String) (m : Int)
    (h : m = 0 ∨ ((sentencesOf text).length : Int) + m ≤ 0) :
    generateExtractiveSummary text m = "" := by
  by_cases ht : text = ""
  · rw [generateExtractiveSummary, if_pos ht]
  · rw [generateExtractiveSummary, if_neg ht]
    have hn : 1 ≤ (sentencesOf text).length :=
      List.length_pos.mpr (sentencesOf_ne_nil text)
    have hk : takeCount m (sentencesOf text).length = 0 := by
      rcases h with h | h
      · subst h
        rw [takeCount, if_neg (by omega)]
        simp [Int.toNat]
      · have hm : m < 0 := by omega
        rw [takeCount, if_pos hm]
        omega
    have hsel : selectedTop text m = [] := by
      have := selectedTop_length text m
      rw [hk] at this
      simp only [Nat.zero_min] at this
      exact List.length_eq_zero.mp this
    rw [hsel]
    rfl

/-- Witness for C7 as amended, at `maxSentences = 0`. -/
theorem C7_amended_witness :
    ((0 : Int) = 0 ∨ ((sentencesOf "Aa. Bb.").length : Int) + 0 ≤ 0) ∧
    generateExtractiveSummary "Aa. Bb." 0 = "" :=
  ⟨Or.inl rfl, C7_amended "Aa. Bb." 0 (Or.inl rfl)⟩

/-- Counterexample to C10: on `".a"` the collapsed text contains a
terminator, but the regex finds no match (no non-terminator run is
followed by a terminator), so the `|| [text]` fallback makes the whole
text — including the character after the last terminator — the single
sentence, and it appears in the output. -/
theorem C10_counterexample :
    (∃ c ∈ collapseWs ".a".data, isTerm c = true) ∧
    sentencesOf ".a" = [".a".data] ∧
    generateExtractiveSummary ".a" 1 = ".a" := by
  exact ⟨by decide, by decide, by decide⟩

/-- C10 as amended: when the segmentation regex matches at least once,
the sentence list equals the segmentation of the collapsed text cut off
after its last terminator, so characters after the last terminator
belong to no segmented sentence; consequently, for every `maxSentences`,
every sentence selected for the output comes from that cut-off prefix. -/
theorem C10_amended (text : String)
    (h : matchSentences (collapseWs text.data) ≠ []) :
    sentencesOf text =
      matchSentences (uptoLastTerm (collapseWs text.data)) ∧
    ∀ (m : Int), ∀ p ∈ selectedTop text m,
      p.s ∈ matchSentences (uptoLastTerm (collapseWs text.data)) := by
  have hup : sentencesOf text =
      matchSentences (uptoLastTerm (collapseWs text.data)) := by
    rw [← matchSentences_uptoLastTerm]
    rw [sentencesOf]
    cases hm : matchSentences (collapseWs text.data) with
    | nil => exact absurd hm h
    | cons s rest => rfl
  refine ⟨hup, ?_⟩
  intro m p hp
  obtain ⟨hget, _⟩ := selectedTop_get? text m p hp
  have : p.s ∈ sentencesOf text := List.get?_mem hget
  exact hup ▸ this

/-- Witness for C10 as amended: a text with a matched sentence and
trailing unterminated characters. -/
theorem C10_amended_witness :
    matchSentences (collapseWs "Hi there. trailing".data) ≠ [] ∧
    sentencesOf "Hi there. trailing" =
      matchSentences (uptoLastTerm (collapseWs "Hi there. trailing".data)) :=
  ⟨by decide, (C10_amended "Hi there. trailing" (by decide)).1⟩

/-- JavaScript values reachable in the summarizer frequency table and
score accumulator.  The exact text of a string obtained from the
inherited `Object` constructor is engine-defined (the ECMAScript
NativeFunction grammar fixes only its shape), but every such string is
non-empty and does not parse as a numeric literal — the only facts later
steps use — so all such strings are one abstract value. -/
inductive JSVal where
  | undef
  | nan
  | num (q : ℚ)
  | nonNumStr
  | objectCtor
deriving DecidableEq

/-- ToBoolean on the values above; the numbers that arise here are exact
rationals, so NaN is a separate constructor. -/
def jsTruthy : JSVal → Bool
  | JSVal.undef => false
  | JSVal.nan => false
  | JSVal.num q => decide (q ≠ 0)
  | JSVal.nonNumStr => true
  | JSVal.objectCtor => true

/-- The JavaScript logical-or, as used in `freq[w] || 0`. -/
def jsOr (a b : JSVal) : JSVal :=
  if jsTruthy a then a else b

/-- JavaScript `+` restricted to the values above: two numbers add; any
string or function operand forces string concatenation, whose result is
again a non-empty non-numeric string; the remaining combinations
(undefined or NaN with a number) are NaN. -/
def jsAdd (a b : JSVal) : JSVal :=
  match a with
  | JSVal.nonNumStr => JSVal.nonNumStr
  | JSVal.objectCtor => JSVal.nonNumStr
  | JSVal.num x =>
    match b with
    | JSVal.num y => JSVal.num (x + y)
    | JSVal.nonNumStr => JSVal.nonNumStr
    | JSVal.objectCtor => JSVal.nonNumStr
    | _ => JSVal.nan
  | _ =>
    match b with
    | JSVal.nonNumStr => JSVal.nonNumStr
    | JSVal.objectCtor => JSVal.nonNumStr
    | _ => JSVal.nan

/-- JavaScript division by a positive integer, as in
`score / Math.max(5, sw.length)`: a number divides exactly; undefined,
NaN, the constructor function, and a non-numeric string all convert to
NaN. -/
def jsDiv (a : JSVal) (d : ℕ) : JSVal :=
  match a with
  | JSVal.num q => JSVal.num (q / (d : ℚ))
  | _ => JSVal.nan

/-- A property read of the plain object `freq = {}` falls through to
`Object.prototype` when no own property exists: the key "constructor"
yields the inherited constructor function; every other key this
tokenizer can produce misses, because the remaining `Object.prototype`
keys contain capital letters or underscores, which no lowercased
`[a-zA-Z0-9']+` token contains. -/
def protoGet (w : List Char) : JSVal :=
  if w = "constructor".data then JSVal.objectCtor else JSVal.undef

/-- Reading `freq[w]`: the own properties in insertion order, then the
prototype chain. -/
def tableGet (tbl : List (List Char × JSVal)) (w : List Char) : JSVal :=
  match tbl with
  | [] => protoGet w
  | e :: rest => if e.1 = w then e.2 else tableGet rest w

/-- Writing `freq[w] = v`: overwrite the own property or create it. -/
def tableSet (tbl : List (List Char × JSVal)) (w : List Char) (v : JSVal) :
    List (List Char × JSVal) :=
  match tbl with
  | [] => [(w, v)]
  | e :: rest => if e.1 = w then (w, v) :: rest else e :: tableSet rest w v

/-- The frequency-table loop with real JavaScript object semantics:
`for (const w of words) { if (stop.has(w)) continue; freq[w] = (freq[w] || 0) + 1 }`,
the read passing through the prototype chain. -/
def jsBuildFreq (ws : List (List Char)) : List (List Char × JSVal) :=
  ws.foldl
    (fun tbl w =>
      if isStop w then tbl
      else
        tableSet tbl w
          (jsAdd (jsOr (tableGet tbl w) (JSVal.num 0)) (JSVal.num 1)))
    []

/-- The sentence-scoring loop with real JavaScript object semantics:
`let score = 0; for (const w of sw) score += freq[w] || 0;` followed by
`score / Math.max(5, sw.length)`. -/
def jsSentenceScore (tbl : List (List Char × JSVal)) (s : List Char) :
    JSVal :=
  jsDiv
    ((sentenceTokens s).foldl
      (fun sc w => jsAdd sc (jsOr (tableGet tbl w) (JSVal.num 0)))
      (JSVal.num 0))
    (max 5 (sentenceTokens s).length)

/-- Reading back a just-written own property. -/
theorem tableGet_set_eq (tbl : List (List Char × JSVal)) (w : List Char)
    (v : JSVal) : tableGet (tableSet tbl w v) w = v := by
  induction tbl with
  | nil => rw [tableSet, tableGet, if_pos rfl]
  | cons e rest ih =>
    rw [tableSet]
    by_cases he : e.1 = w
    · rw [if_pos he, tableGet, if_pos rfl]
    · rw [if_neg he, tableGet, if_neg he]
      exact ih

/-- Writing one own property leaves every other read unchanged. -/
theorem tableGet_set_ne (tbl : List (List Char × JSVal)) (w x : List Char)
    (v : JSVal) (h : x ≠ w) :
    tableGet (tableSet tbl w v) x = tableGet tbl x := by
  have hwx : ¬((w, v).1 = x) := fun hx => h hx.symm
  induction tbl with
  | nil =>
    rw [tableSet]
    show (if (w, v).1 = x then v else tableGet [] x) = tableGet [] x
    rw [if_neg hwx]
  | cons e rest ih =>
    rw [tableSet]
    by_cases he : e.1 = w
    · rw [if_pos he]
      have hex : ¬(e.1 = x) := fun hx => h (hx.symm.trans he)
      show (if (w, v).1 = x then v else tableGet rest x) =
        if e.1 = x then e.2 else tableGet rest x
      rw [if_neg hwx, if_neg hex]
    · rw [if_neg he]
      show (if e.1 = x then e.2 else tableGet (tableSet rest w v) x) =
        if e.1 = x then e.2 else tableGet rest x
      by_cases hex : e.1 = x
      · rw [if_pos hex, if_pos hex]
      · rw [if_neg hex, if_neg hex]
        exact ih

/-- Except at the key "constructor", the real object read (with the
`|| 0` guard) agrees with the declared-semantics frequency map
`buildFreq`: the prototype chain is the only difference between the
plain object and a clean map. -/
theorem jsBuildFreq_agrees (ws : List (List Char)) :
    ∀ w, w ≠ "constructor".data →
      jsOr (tableGet (jsBuildFreq ws) w) (JSVal.num 0) =
        JSVal.num (buildFreq ws w) := by
  have aux : ∀ (ws : List (List Char)) (tbl : List (List Char × JSVal))
      (f : List Char → ℕ),
      (∀ w, w ≠ "constructor".data →
          jsOr (tableGet tbl w) (JSVal.num 0) = JSVal.num (f w)) →
      ∀ w, w ≠ "constructor".data →
        jsOr
          (tableGet
            (ws.foldl
              (fun tbl w =>
                if isStop w then tbl
                else
                  tableSet tbl w
                    (jsAdd (jsOr (tableGet tbl w) (JSVal.num 0))
                      (JSVal.num 1)))
              tbl) w)
          (JSVal.num 0) =
        JSVal.num
          ((ws.foldl
            (fun f w =>
              if isStop w then f
              else fun x => if x = w then f x + 1 else f x) f) w) := by
    intro ws
    induction ws with
    | nil => intro tbl f h w hw; exact h w hw
    | cons v rest ih =>
      intro tbl f h w hw
      rw [List.foldl_cons, List.foldl_cons]
      by_cases hv : isStop v = true
      · rw [if_pos hv, if_pos hv]
        exact ih tbl f h w hw
      · rw [Bool.not_eq_true] at hv
        rw [if_neg (by simp [hv]), if_neg (by simp [hv])]
        refine ih _ _ ?_ w hw
        intro x hx
        by_cases hxv : x = v
        · subst hxv
          rw [tableGet_set_eq, h x hx]
          have hstep :
              jsAdd (JSVal.num (f x)) (JSVal.num 1) =
                JSVal.num ((f x : ℚ) + 1) := rfl
          rw [hstep, jsOr, if_pos (by
            simp only [jsTruthy, decide_eq_true_eq]
            positivity)]
          rw [if_pos rfl]
          congr 1
          push_cast
          ring
        · rw [tableGet_set_ne tbl v x _ hxv, h x hx, if_neg hxv]
  intro w hw
  refine aux ws [] (fun _ => 0) ?_ w hw
  intro x hx
  rw [tableGet, protoGet, if_neg hx, jsOr]
  simp [jsTruthy]

/-- On a sentence that never uses the token "constructor", the real
scoring loop computes exactly the declared-semantics score. -/
theorem jsSentenceScore_agrees (ws : List (List Char)) (s : List Char)
    (hs : "constructor".data ∉ sentenceTokens s) :
    jsSentenceScore (jsBuildFreq ws) s =
      JSVal.num (scoreWith (buildFreq ws) s) := by
  have aux : ∀ (toks : List (List Char)) (a : ℚ),
      (∀ w ∈ toks, w ≠ "constructor".data) →
      toks.foldl
        (fun sc w =>
          jsAdd sc (jsOr (tableGet (jsBuildFreq ws) w) (JSVal.num 0)))
        (JSVal.num a) =
      JSVal.num (a + ((toks.map (fun w => (buildFreq ws w : ℚ))).sum)) := by
    intro toks
    induction toks with
    | nil => intro a h; simp
    | cons t rest ih =>
      intro a h
      rw [List.foldl_cons,
        jsBuildFreq_agrees ws t (h t (List.mem_cons_self t rest))]
      have hstep :
          jsAdd (JSVal.num a) (JSVal.num (buildFreq ws t)) =
            JSVal.num (a + (buildFreq ws t : ℚ)) := rfl
      rw [hstep,
        ih (a + (buildFreq ws t : ℚ))
          (fun w hw => h w (List.mem_cons_of_mem t hw))]
      congr 1
      rw [List.map_cons, List.sum_cons]
      ring
  rw [jsSentenceScore,
    aux (sentenceTokens s) 0 (fun w hw he => hs (he ▸ hw)), zero_add]
  simp only [jsDiv]
  rw [scoreWith_eq_div]

/-- C5: the claimed scoring formula fails on the code at a concrete
input, though it is what the declared `Record<string, number>` type and
the spec intend.  On the text below, the token "constructor" makes
`freq[w]` hit the inherited (truthy) `Object` constructor through the
prototype chain, `(freq[w] || 0) + 1` string-concatenates, and the
score of the sentence containing it is NaN, while the claimed sum over
token counts divided by `max(5, tokenCount)` is 2/5 — a real number.
The declared-semantics score (second conjunct) matches that formula
(third conjunct); the real score (first conjunct) does not. -/
theorem C5_constructor_poisoning :
    jsSentenceScore
        (jsBuildFreq (wordsOf "The constructor runs. Dogs bark."))
        "The constructor runs.".data = JSVal.nan ∧
    scoreWith (buildFreq (wordsOf "The constructor runs. Dogs bark."))
        "The constructor runs.".data = mkRat 2 5 ∧
    (((sentenceTokens "The constructor runs.".data).map (fun w =>
        ((((wordsOf "The constructor runs. Dogs bark.").filter
            (fun v => !isStop v)).count w : ℕ) : ℚ))).sum) /
      ((max 5 (sentenceTokens "The constructor runs.".data).length : ℕ) :
        ℚ) = mkRat 2 5 ∧
    JSVal.nan ≠ JSVal.num (mkRat 2 5) := by
  have h1 : scoreWith (buildFreq (wordsOf "The constructor runs. Dogs bark."))
      "The constructor runs.".data = mkRat 2 5 := by decide
  have h2 : scoreWith (buildFreq (wordsOf "The constructor runs. Dogs bark."))
      "The constructor runs.".data =
      (((sentenceTokens "The constructor runs.".data).map (fun w =>
          ((((wordsOf "The constructor runs. Dogs bark.").filter
              (fun v => !isStop v)).count w : ℕ) : ℚ))).sum) /
        ((max 5 (sentenceTokens "The constructor runs.".data).length : ℕ) :
          ℚ) := by
    rw [scoreWith_eq_div]
    simp only [buildFreq_eq_count]
  exact ⟨by decide, h1, h2 ▸ h1, by decide⟩

/-- C6: for every text and every `maxSentences`, the selected sentences
carry strictly increasing original positions (so they appear in the
output in ascending source order regardless of score ranking), each
selected record holds the sentence stored at its recorded position, and
the output is exactly the selected sentences trimmed and joined with
single spaces. -/
theorem C6_output_order (text : String) (m : Int) :
    List.Pairwise (fun a b => a.i < b.i) (selectedTop text m) ∧
    (∀ p ∈ selectedTop text m,
        (sentencesOf text).get? p.i = some p.s) ∧
    generateExtractiveSummary text m =
      (if text = "" then ""
       else String.mk
        (joinSp ((selectedTop text m).map (fun t => trimL t.s)))) := by
  refine ⟨selectedTop_sorted text m, ?_, rfl⟩
  intro p hp
  exact (selectedTop_get? text m p hp).1

/-- Witness for C6 on a text whose highest-scoring sentence comes last
in source order. -/
theorem C6_output_order_witness :
    List.Pairwise (fun a b => a.i < b.i)
      (selectedTop "Zz ww. Cats and cats and cats." 2) ∧
    (∀ p ∈ selectedTop "Zz ww. Cats and cats and cats." 2,
        (sentencesOf "Zz ww. Cats and cats and cats.").get? p.i =
          some p.s) ∧
    generateExtractiveSummary "Zz ww. Cats and cats and cats." 2 =
      (if ("Zz ww. Cats and cats and cats." : String) = "" then ""
       else String.mk
        (joinSp ((selectedTop "Zz ww. Cats and cats and cats." 2).map
          (fun t => trimL t.s)))) :=
  C6_output_order "Zz ww. Cats and cats and cats." 2

/-- C8: getSummary reports the stored status when a non-empty one is
present; with no stored status it reports completed exactly when a
non-empty summary exists and not_available otherwise; and it writes
nothing back — the session state it leaves is its input. -/
theorem C8_getSummary (s : Session) :
    (∀ st, s.summaryStatus = some st → st ≠ "" →
        (getSummaryStep s).1.status = st) ∧
    (truthyOpt s.summaryStatus = none →
        (∀ t, s.summary = some t → t ≠ "" →
            (getSummaryStep s).1.status = "completed") ∧
        (truthyOpt s.summary = none →
            (getSummaryStep s).1.status = "not_available")) ∧
    (getSummaryStep s).2 = s := by
  refine ⟨?_, ?_, rfl⟩
  · intro st hst hne
    show (getSummaryView s).status = st
    rw [getSummaryView]
    simp only []
    rw [hst, truthyOpt, if_neg hne]
  · intro hnone
    constructor
    · intro t ht htne
      show (getSummaryView s).status = "completed"
      rw [getSummaryView]
      simp only []
      rw [hnone, ht, truthyOpt, if_neg htne]
    · intro hsum
      show (getSummaryView s).status = "not_available"
      rw [getSummaryView]
      simp only []
      rw [hnone, hsum]

/-- Witness for C8: a migrated session with a summary but no status
reports completed; the handler returns its input state unchanged. -/
theorem C8_getSummary_witness :
    (({ transcript := none, transcriptLang := none,
        summary := some "old summary", summaryStatus := none } :
          Session).summary = some "old summary") ∧
    ("old summary" : String) ≠ "" ∧
    (getSummaryStep
        { transcript := none, transcriptLang := none,
          summary := some "old summary", summaryStatus := none }).1.status =
      "completed" :=
  ⟨rfl, by decide,
    ((C8_getSummary
      { transcript := none, transcriptLang := none,
        summary := some "old summary", summaryStatus := none }).2.1
      (by decide)).1 "old summary" rfl (by decide)⟩

/-- Trimming a string twice is trimming it once. -/
theorem trimStr_idem (s : String) : trimStr (trimStr s) = trimStr s :=
  congrArg String.mk (trimL_idem s.data)

/-- C3: the remote adapter is total and fail-safe.  A missing or empty
credential, a thrown fetch, a non-success response, a missing text
payload, or a payload blank after trimming each yield none; and any
string it does return is non-empty and equals its own trim. -/
theorem C3_remote_failsafe (env : GeminiEnv) (transcript : String) :
    (truthyOpt env.apiKey = none →
        summarizeWithGemini env transcript = none) ∧
    (env.fetch (geminiPreamble ++ tailTruncate 16000 transcript) = none →
        summarizeWithGemini env transcript = none) ∧
    (∀ resp,
        env.fetch (geminiPreamble ++ tailTruncate 16000 transcript) =
          some resp →
        resp.ok = false → summarizeWithGemini env transcript = none) ∧
    (∀ resp,
        env.fetch (geminiPreamble ++ tailTruncate 16000 transcript) =
          some resp →
        resp.textPayload = none →
        summarizeWithGemini env transcript = none) ∧
    (∀ resp payload,
        env.fetch (geminiPreamble ++ tailTruncate 16000 transcript) =
          some resp →
        resp.textPayload = some payload → trimStr payload = "" →
        summarizeWithGemini env transcript = none) ∧
    (∀ out, summarizeWithGemini env transcript = some out →
        out ≠ "" ∧ trimStr out = out) := by
  cases hk : env.apiKey with
  | none =>
    have hres : summarizeWithGemini env transcript = none := by
      rw [summarizeWithGemini, hk]
    refine ⟨fun _ => hres, fun _ => hres, fun _ _ _ => hres,
      fun _ _ _ => hres, fun _ _ _ _ _ => hres, ?_⟩
    intro out hout
    rw [hres] at hout
    exact absurd hout (by simp)
  | some key =>
    by_cases hkey : key = ""
    · have hres : summarizeWithGemini env transcript = none := by
        rw [summarizeWithGemini, hk]
        simp only []
        rw [if_pos hkey]
      refine ⟨fun _ => hres, fun _ => hres, fun _ _ _ => hres,
        fun _ _ _ => hres, fun _ _ _ _ _ => hres, ?_⟩
      intro out hout
      rw [hres] at hout
      exact absurd hout (by simp)
    · have hbody : summarizeWithGemini env transcript =
          (match env.fetch (geminiPreamble ++ tailTruncate 16000 transcript)
            with
          | none => none
          | some resp =>
            if resp.ok = false then none
            else
              match resp.textPayload with
              | none => none
              | some t =>
                if 0 < (trimStr t).length then some (trimStr t)
                else none) := by
        rw [summarizeWithGemini, hk]
        simp only []
        rw [if_neg hkey]
      refine ⟨?_, ?_, ?_, ?_, ?_, ?_⟩
      · intro h
        simp only [truthyOpt] at h
        rw [if_neg hkey] at h
        exact absurd h (by simp)
      · intro h
        rw [hbody, h]
      · intro resp hf hok
        rw [hbody, hf]
        simp [hok]
      · intro resp hf hpay
        rw [hbody, hf]
        simp only [hpay]
        rw [ite_self]
      · intro resp payload hf hpay htrim
        rw [hbody, hf]
        simp [hpay, htrim]
      · intro out hout
        rw [hbody] at hout
        cases hf : env.fetch (geminiPreamble ++ tailTruncate 16000 transcript)
          with
        | none => rw [hf] at hout; exact absurd hout (by simp)
        | some resp =>
          rw [hf] at hout
          simp only [] at hout
          by_cases hok : resp.ok = false
          · rw [if_pos hok] at hout
            exact absurd hout (by simp)
          · rw [if_neg hok] at hout
            cases hpay : resp.textPayload with
            | none =>
              rw [hpay] at hout
              exact absurd hout (by simp)
            | some t =>
              rw [hpay] at hout
              simp only [] at hout
              by_cases hlen : 0 < (trimStr t).length
              · rw [if_pos hlen] at hout
                have hto : out = trimStr t := (Option.some_inj.mp hout).symm
                subst hto
                constructor
                · intro he
                  rw [he] at hlen
                  exact absurd hlen (by decide)
                · exact trimStr_idem t
              · rw [if_neg hlen] at hout
                exact absurd hout (by simp)

/-- Witness for C3: an environment with no credential yields none. -/
theorem C3_remote_failsafe_witness :
    truthyOpt (GeminiEnv.mk none (fun _ => none)).apiKey = none ∧
    summarizeWithGemini (GeminiEnv.mk none (fun _ => none)) "talk" = none :=
  ⟨rfl, (C3_remote_failsafe (GeminiEnv.mk none (fun _ => none)) "talk").1 rfl⟩

/-- C9: a submission issues its pending write (carrying the merged
transcript, with the old summary untouched) strictly before any
summarization — the pending write does not depend on the remote oracle —
and its completed write after; two sequential submissions starting from
an observed status of not_available traverse exactly
not_available, pending, completed, pending, completed. -/
theorem C9_status_trace (remote1 remote2 : String → Option String)
    (s0 : Session) (f1 f2 : String) (l1 l2 : Option String)
    (h0 : observedStatus s0 = "not_available") :
    ([observedStatus s0] ++
        (uploadWrites remote1 s0 f1 l1).map observedStatus ++
        (uploadWrites remote2 (uploadTranscriptStep remote1 s0 f1 l1).1 f2
            l2).map observedStatus) =
      ["not_available", "pending", "completed", "pending", "completed"] ∧
    (uploadWrites remote1 s0 f1 l1).head? = some (pendingState s0 f1 l1) ∧
    (pendingState s0 f1 l1).transcript =
      some (mergeTranscript s0.transcript f1) ∧
    (pendingState s0 f1 l1).summary = s0.summary := by
  refine ⟨?_, rfl, rfl, rfl⟩
  have hpend : ∀ (s : Session) (f : String) (l : Option String),
      observedStatus (pendingState s f l) = "pending" := by
    intro s f l
    rw [observedStatus, getSummaryView]
    simp [pendingState, truthyOpt]
  have hdone : ∀ (r : String → Option String) (s : Session) (f : String)
      (l : Option String),
      observedStatus (completedState r s f l) = "completed" := by
    intro r s f l
    rw [observedStatus, getSummaryView]
    simp [completedState, pendingState, truthyOpt]
  simp only [uploadWrites, uploadTranscriptStep, List.map_cons,
    List.map_nil, List.cons_append, List.nil_append, hpend, hdone, h0]

/-- Witness for C9: two concrete submissions on a fresh session with an
always-failing remote oracle. -/
theorem C9_status_trace_witness :
    observedStatus initialSession = "not_available" ∧
    ([observedStatus initialSession] ++
        (uploadWrites (fun _ => none) initialSession "x." none).map
          observedStatus ++
        (uploadWrites (fun _ => none)
            (uploadTranscriptStep (fun _ => none) initialSession "x."
              none).1 "y." none).map observedStatus) =
      ["not_available", "pending", "completed", "pending", "completed"] :=
  ⟨by decide,
    (C9_status_trace (fun _ => none) (fun _ => none) initialSession "x."
      "y." none none (by decide)).1⟩

/-- Counterexample to C2: the single-space fragment has length 1 and so
passes validation, but with the remote summarizer unavailable the
reachable completed state persists the empty string as its summary: the
whitespace-only text has no regex match, falls back to `[text]`, and the
single sentence trims to nothing. -/
theorem C2_counterexample :
    Reach (uploadTranscriptStep (fun _ => none) initialSession " "
      none).1 ∧
    1 ≤ (" " : String).length ∧
    (uploadTranscriptStep (fun _ => none) initialSession " "
        none).1.summaryStatus = some "completed" ∧
    (uploadTranscriptStep (fun _ => none) initialSession " "
        none).1.summary = some "" := by
  exact ⟨Reach.step (fun _ => none) initialSession " " none Reach.init
    (by decide), by decide, by decide, by decide⟩

/-- C2 as amended: in every session state reachable by complete
submissions of validated fragments, if the persisted status is completed
and the accumulated transcript contains at least one non-whitespace
character, then the persisted summary is a non-empty string.  (The
counterexample shows the non-whitespace proviso is necessary: an
all-whitespace transcript completes with an empty summary.) -/
theorem C2_amended (s : Session) (hs : Reach s) :
    s.summaryStatus = some "completed" →
    ∀ t : String, s.transcript = some t →
    ∀ c ∈ t.data, isWs c = false →
    ∃ summary, s.summary = some summary ∧ summary ≠ "" := by
  induction hs with
  | init =>
    intro hcomp
    exact absurd hcomp (by rw [initialSession]; simp)
  | step remote s' f lang hr hf ih =>
    intro _ t ht c hc hw
    have htm : t = mergeTranscript s'.transcript f := by
      have : some t =
          some (mergeTranscript s'.transcript f) := by
        rw [← ht]; rfl
      exact Option.some_inj.mp this
    refine ⟨finalSummary remote (mergeTranscript s'.transcript f), rfl, ?_⟩
    subst htm
    rw [finalSummary]
    cases hrem : remote (mergeTranscript s'.transcript f) with
    | none =>
      exact generateExtractiveSummary_ne_empty
        (mergeTranscript s'.transcript f) c hc hw
    | some r =>
      simp only []
      by_cases hr0 : r = ""
      · rw [if_pos hr0]
        exact generateExtractiveSummary_ne_empty
          (mergeTranscript s'.transcript f) c hc hw
      · rw [if_neg hr0]
        exact hr0

/-- Witness for C2 as amended: one submission of a real sentence with
the remote summarizer unavailable reaches a completed state whose
summary is non-empty. -/
theorem C2_amended_witness :
    ((uploadTranscriptStep (fun _ => none) initialSession "We met."
        none).1.summaryStatus = some "completed") ∧
    ((uploadTranscriptStep (fun _ => none) initialSession "We met."
        none).1.transcript = some "We met.") ∧
    ∃ summary,
      (uploadTranscriptStep (fun _ => none) initialSession "We met."
          none).1.summary = some summary ∧ summary ≠ "" :=
  ⟨by decide, by decide,
    C2_amended _
      (Reach.step (fun _ => none) initialSession "We met." none Reach.init
        (by decide))
      (by decide) "We met." (by decide) (Char.ofNat 87) (by decide)
      (by decide)⟩
